import Mathlib

/-!
Verification of the qcl configuration-loading library.

The Go sources are shallowly embedded below: strings become lists of
characters (the library manipulates ASCII identifiers and values), Go's
reflect-driven traversal becomes recursion over an explicit datatype of
field shapes and values, fallible operations return `Except`, and the
process environment becomes a function from names to values (Go's
`os.Getenv` returns the empty string for unset variables).
-/

set_option maxHeartbeats 1000000
set_option linter.unusedVariables false

namespace Qcl

/-- Strings are modelled as lists of characters. -/
abbrev Str := List Char

/-- `leadMatch p s` checks whether `s` starts with `p` (Go `strings.HasPrefix`). -/
def leadMatch : Str → Str → Bool
  | [], _ => true
  | _ :: _, [] => false
  | a :: as, b :: bs => a == b && leadMatch as bs

/-- Leftmost occurrence of a (nonempty) separator in a string: returns the part
before the first occurrence and the part after it (Go `strings.Index` + slicing). -/
def findSep (sep : Str) : Str → Option (Str × Str)
  | [] => none
  | c :: rest =>
    if leadMatch sep (c :: rest) then some ([], (c :: rest).drop sep.length)
    else
      match findSep sep rest with
      | some (pre, post) => some (c :: pre, post)
      | none => none

theorem findSep_post_lt (sep : Str) (hsep : sep ≠ []) :
    ∀ s a b : Str, findSep sep s = some (a, b) → b.length < s.length := by
  intro s
  induction s with
  | nil => intro a b h; simp [findSep] at h
  | cons c rest ih =>
    intro a b h
    simp only [findSep] at h
    by_cases hl : leadMatch sep (c :: rest) = true
    · rw [if_pos hl] at h
      simp only [Option.some.injEq, Prod.mk.injEq] at h
      obtain ⟨-, hb⟩ := h
      have hsl : 1 ≤ sep.length := by
        cases sep with
        | nil => exact absurd rfl hsep
        | cons x xs => simp
      rw [← hb]
      simp only [List.length_drop, List.length_cons]
      omega
    · rw [if_neg hl] at h
      cases hfs : findSep sep rest with
      | none => rw [hfs] at h; simp at h
      | some pr =>
        obtain ⟨pre, post⟩ := pr
        rw [hfs] at h
        simp only [Option.some.injEq, Prod.mk.injEq] at h
        obtain ⟨-, hb⟩ := h
        have := ih pre post hfs
        rw [← hb]
        simp only [List.length_cons]
        omega

/-- Go `strings.Split`.  For an empty separator Go splits into individual
(one-rune) strings; otherwise the string is cut around every occurrence of
the separator.  `goSplit sep "" = [""]` just as in Go. -/
def goSplit (sep : Str) (s : Str) : List Str :=
  if hsep : sep = [] then s.map (fun c => [c])
  else
    match hfind : findSep sep s with
    | some (pre, post) => pre :: goSplit sep post
    | none => [s]
termination_by s.length
decreasing_by
  exact findSep_post_lt sep hsep s pre post hfind

/-- Go `strings.SplitN (s, sep, 2)`: split at the first occurrence of the
separator only. -/
def splitN2 (sep : Str) (s : Str) : List Str :=
  match findSep sep s with
  | some (pre, post) => [pre, post]
  | none => [s]

/-- Go `strings.TrimSpace` (leading and trailing whitespace removed). -/
def trimSpace (s : Str) : Str :=
  ((s.dropWhile Char.isWhitespace).reverse.dropWhile Char.isWhitespace).reverse

/-- Go `strings.ToUpper`, on ASCII letters. -/
def toUpperStr (s : Str) : Str := s.map Char.toUpper

/-- Go `strings.ToLower`, on ASCII letters. -/
def toLowerStr (s : Str) : Str := s.map Char.toLower

/-! ## The word splitter (`splitOnWordBoundaries`, src/common.go) -/

/-- The boundary test of the Go loop body at a position with predecessor
`prev`, current character `c` and successor `next`: split before an uppercase
letter that follows a lowercase one, or before an uppercase letter that
follows another uppercase letter when the next character is lowercase. -/
def goBoundary (prev c next : Char) : Bool :=
  c.isUpper && (prev.isLower || (prev.isUpper && next.isLower))

/-- The scan of the Go `for` loop: starting from index `i` (predecessor
`prev`), return the index of the first word boundary, if any.  The loop
checks no position unless a successor character exists (it returns the whole
string upon reaching the last index). -/
def findB (prev : Char) : Str → Nat → Option Nat
  | c :: next :: rest, i =>
    if goBoundary prev c next then some i
    else findB c (next :: rest) (i + 1)
  | _, _ => none

theorem findB_ge (prev : Char) (l : Str) (i j : Nat) (h : findB prev l i = some j) :
    i ≤ j := by
  induction l generalizing prev i with
  | nil => simp [findB] at h
  | cons c rest ih =>
    cases rest with
    | nil => simp [findB] at h
    | cons next rest' =>
      simp only [findB] at h
      by_cases hb : goBoundary prev c next = true
      · simp [hb] at h
        omega
      · simp [hb] at h
        have := ih c (i + 1) h
        omega

theorem findB_lt (prev : Char) (l : Str) (i j : Nat) (h : findB prev l i = some j) :
    j - i + 2 ≤ l.length := by
  induction l generalizing prev i with
  | nil => simp [findB] at h
  | cons c rest ih =>
    cases rest with
    | nil => simp [findB] at h
    | cons next rest' =>
      simp only [findB] at h
      by_cases hb : goBoundary prev c next = true
      · simp [hb] at h
        subst h
        simp only [List.length_cons]
        omega
      · simp [hb] at h
        have h1 := ih c (i + 1) h
        have h2 := findB_ge c (next :: rest') (i + 1) j h
        simp only [List.length_cons] at h1 ⊢
        omega

/-- `splitOnWordBoundaries` from src/common.go: split an identifier at word
boundaries (the byte-indexed Go loop, modelled on ASCII characters).  The
empty string yields no tokens; otherwise the string is split at the first
boundary found and the splitter recurses on the remainder; reaching the last
index returns the remainder as a single token. -/
def splitOnWordBoundaries (s : Str) : List Str :=
  match s with
  | [] => []
  | a :: rest =>
    match hf : findB a rest 1 with
    | some i => (a :: rest).take i :: splitOnWordBoundaries ((a :: rest).drop i)
    | none => [a :: rest]
termination_by s.length
decreasing_by
  simp only [List.length_drop, List.length_cons]
  have h1 := findB_ge _ _ _ _ (by assumption : findB _ _ 1 = some _)
  omega

theorem splitOnWordBoundaries_cons_some (a : Char) (rest : Str) (i : Nat)
    (hf : findB a rest 1 = some i) :
    splitOnWordBoundaries (a :: rest) =
      (a :: rest).take i :: splitOnWordBoundaries ((a :: rest).drop i) := by
  rw [splitOnWordBoundaries.eq_def]
  split
  · rename_i heq
    exact absurd heq (by simp)
  · rename_i a' rest' heq
    obtain ⟨rfl, rfl⟩ := List.cons.inj heq
    split
    · rename_i i' hf'
      rw [hf] at hf'
      obtain rfl := Option.some.inj hf'
      rfl
    · rename_i hf'
      rw [hf] at hf'
      exact absurd hf' (Option.some_ne_none i)

theorem splitOnWordBoundaries_cons_none (a : Char) (rest : Str)
    (hf : findB a rest 1 = none) :
    splitOnWordBoundaries (a :: rest) = [a :: rest] := by
  rw [splitOnWordBoundaries.eq_def]
  split
  · rename_i heq
    exact absurd heq (by simp)
  · rename_i a' rest' heq
    obtain ⟨rfl, rfl⟩ := List.cons.inj heq
    split
    · rename_i i' hf'
      rw [hf] at hf'
      exact absurd hf'.symm (Option.some_ne_none i')
    · rfl

/-- Concatenation of a token list with no separator. -/
def concatAll : List Str → Str
  | [] => []
  | t :: ts => t ++ concatAll ts

theorem splitOnWordBoundaries_concat_aux (n : Nat) :
    ∀ s : Str, s.length ≤ n → concatAll (splitOnWordBoundaries s) = s := by
  induction n with
  | zero =>
    intro s hs
    have : s = [] := List.length_eq_zero.mp (Nat.le_zero.mp hs)
    subst this
    simp [splitOnWordBoundaries, concatAll]
  | succ n ih =>
    intro s hs
    match s with
    | [] => simp [splitOnWordBoundaries, concatAll]
    | a :: rest =>
      cases hf : findB a rest 1 with
      | none => rw [splitOnWordBoundaries_cons_none a rest hf]; simp [concatAll]
      | some i =>
        rw [splitOnWordBoundaries_cons_some a rest i hf]
        simp only [concatAll]
        have h1 := findB_ge a rest 1 i hf
        have hlen : ((a :: rest).drop i).length ≤ n := by
          simp only [List.length_drop, List.length_cons]
          simp only [List.length_cons] at hs
          omega
        rw [ih _ hlen]
        exact List.take_append_drop i (a :: rest)

/-- Claim C6: for every identifier string, concatenating the word splitter's
output tokens in order with no separator reconstructs the original string
exactly — no characters are lost, added, or reordered. -/
theorem splitOnWordBoundaries_concat (s : Str) :
    concatAll (splitOnWordBoundaries s) = s :=
  splitOnWordBoundaries_concat_aux s.length s le_rfl

/-- Modelled from the spec's boundary rule, restricted to positions that have
a following character: a single left-to-right scan that records index `i`
whenever the rule (uppercase after lowercase, or uppercase after uppercase
with the next character lowercase) fires at `i`.  Unlike the splitter itself
this definition never restarts: it lists every rule position of the string. -/
def scanB (prev : Char) : Str → Nat → List Nat
  | c :: next :: rest, i =>
    if goBoundary prev c next then i :: scanB c (next :: rest) (i + 1)
    else scanB c (next :: rest) (i + 1)
  | _, _ => []

/-- All positions of a string at which the spec's (amended) boundary rule
fires: positions needing both a predecessor and a successor character. -/
def specBoundaryPositions : Str → List Nat
  | [] => []
  | a :: rest => scanB a rest 1

/-- The sequence of cut positions of a token list: the accumulated lengths of
all tokens except the last. -/
def tokenCuts : List Str → List Nat
  | [] => []
  | [_] => []
  | t :: ts => t.length :: (tokenCuts ts).map (· + t.length)

theorem scanB_add (prev : Char) (l : Str) :
    ∀ i d : Nat, scanB prev l (i + d) = (scanB prev l i).map (· + d) := by
  induction l generalizing prev with
  | nil => intro i d; simp [scanB]
  | cons c rest ih =>
    intro i d
    cases rest with
    | nil => simp [scanB]
    | cons next rest' =>
      simp only [scanB]
      by_cases hb : goBoundary prev c next = true
      · rw [if_pos hb, if_pos hb]
        have : i + d + 1 = (i + 1) + d := by omega
        rw [this, ih c (i + 1) d]
        simp
      · rw [if_neg hb, if_neg hb]
        have : i + d + 1 = (i + 1) + d := by omega
        rw [this, ih c (i + 1) d]

theorem findB_none_scanB (prev : Char) (l : Str) :
    ∀ i : Nat, findB prev l i = none → scanB prev l i = [] := by
  induction l generalizing prev with
  | nil => intro i h; simp [scanB]
  | cons c rest ih =>
    intro i h
    cases rest with
    | nil => simp [scanB]
    | cons next rest' =>
      simp only [findB] at h
      simp only [scanB]
      by_cases hb : goBoundary prev c next = true
      · rw [if_pos hb] at h; simp at h
      · rw [if_neg hb] at h
        rw [if_neg hb]
        exact ih c (i + 1) h

theorem findB_some_scanB (prev : Char) (l : Str) :
    ∀ i j : Nat, findB prev l i = some j →
      i ≤ j ∧ ∃ c' t', l.drop (j - i) = c' :: t' ∧
        scanB prev l i = j :: scanB c' t' (j + 1) := by
  induction l generalizing prev with
  | nil => intro i j h; simp [findB] at h
  | cons c rest ih =>
    intro i j h
    cases rest with
    | nil => simp [findB] at h
    | cons next rest' =>
      simp only [findB] at h
      simp only [scanB]
      by_cases hb : goBoundary prev c next = true
      · rw [if_pos hb] at h
        obtain rfl := Option.some.inj h
        rw [if_pos hb]
        refine ⟨le_rfl, c, next :: rest', ?_, rfl⟩
        simp
      · rw [if_neg hb] at h
        rw [if_neg hb]
        obtain ⟨hij, c', t', hdrop, hscan⟩ := ih c (i + 1) j h
        refine ⟨by omega, c', t', ?_, hscan⟩
        have hji : j - i = (j - (i + 1)) + 1 := by omega
        rw [hji, List.drop_succ_cons]
        exact hdrop

theorem splitOnWordBoundaries_ne_nil (a : Char) (rest : Str) :
    splitOnWordBoundaries (a :: rest) ≠ [] := by
  cases hf : findB a rest 1 with
  | none => rw [splitOnWordBoundaries_cons_none a rest hf]; simp
  | some i => rw [splitOnWordBoundaries_cons_some a rest i hf]; simp

theorem tokenCuts_split_aux (n : Nat) :
    ∀ s : Str, s.length ≤ n →
      tokenCuts (splitOnWordBoundaries s) = specBoundaryPositions s := by
  induction n with
  | zero =>
    intro s hs
    have : s = [] := List.length_eq_zero.mp (Nat.le_zero.mp hs)
    subst this
    simp [splitOnWordBoundaries, specBoundaryPositions, tokenCuts]
  | succ n ih =>
    intro s hs
    match s with
    | [] => simp [splitOnWordBoundaries, specBoundaryPositions, tokenCuts]
    | a :: rest =>
      simp only [specBoundaryPositions]
      cases hf : findB a rest 1 with
      | none =>
        rw [splitOnWordBoundaries_cons_none a rest hf]
        rw [findB_none_scanB a rest 1 hf]
        rfl
      | some i =>
        rw [splitOnWordBoundaries_cons_some a rest i hf]
        obtain ⟨h1i, c', t', hdrop, hscan⟩ := findB_some_scanB a rest 1 i hf
        have hdropcons : (a :: rest).drop i = c' :: t' := by
          have : i = (i - 1) + 1 := by omega
          rw [this, List.drop_succ_cons]
          exact hdrop
        have hlt : i < (a :: rest).length := by
          have := findB_lt a rest 1 i hf
          simp only [List.length_cons]
          omega
        have hlen : ((a :: rest).drop i).length ≤ n := by
          simp only [List.length_drop, List.length_cons]
          simp only [List.length_cons] at hs
          omega
        have hih := ih _ hlen
        rw [hdropcons] at hih ⊢
        have hne := splitOnWordBoundaries_ne_nil c' t'
        match hsp : splitOnWordBoundaries (c' :: t') with
        | [] => exact absurd hsp hne
        | u :: us =>
          rw [hsp] at hih
          simp only [tokenCuts]
          rw [hscan, hih]
          simp only [specBoundaryPositions]
          have htake : ((a :: rest).take i).length = i := by
            rw [List.length_take]
            omega
          rw [htake]
          congr 1
          have : i + 1 = 1 + i := by omega
          rw [this, scanB_add c' t' 1 i]

/-- Claim C7 (amended): the word splitter places boundaries exactly at the
positions where the spec's rule fires — immediately before an uppercase
letter that follows a lowercase letter, and immediately before an uppercase
letter that follows another uppercase letter exactly when the next character
is lowercase — except that a position is only considered when a following
character exists, so no boundary is ever placed before the final character of
the string.  Together with `splitOnWordBoundaries_concat` this determines the
token list completely (empty input yields an empty sequence, a single
character a one-element sequence). -/
theorem splitOnWordBoundaries_cuts (s : Str) :
    tokenCuts (splitOnWordBoundaries s) = specBoundaryPositions s :=
  tokenCuts_split_aux s.length s le_rfl

/-- Claim C7, counterexample: on `"FooX"` the claim requires a boundary
immediately before the uppercase `X` that follows a lowercase `o`, giving
tokens `"Foo"`, `"X"`; the code instead returns the whole string as one token
because the Go loop returns upon reaching the last index before testing it. -/
theorem splitOnWordBoundaries_finalUpper :
    splitOnWordBoundaries "FooX".data = ["FooX".data] ∧
      splitOnWordBoundaries "FooX".data ≠ ["Foo".data, "X".data] := by
  have hf : findB 'F' "ooX".data 1 = none := by decide
  have h1 : splitOnWordBoundaries "FooX".data = ["FooX".data] :=
    splitOnWordBoundaries_cons_none 'F' "ooX".data hf
  exact ⟨h1, by rw [h1]; decide⟩

/-! ## Data model: field shapes and values

Go's reflect-driven traversal works on `reflect.Type`/`reflect.Value` pairs.
We embed the shapes the library handles — strings, booleans, the fixed-width
signed and unsigned integer kinds (plain `int`/`uint` are modelled as the
64-bit kinds, as on the platforms the tests run on), pointers, slices,
string-keyed maps and structs — as an explicit datatype, and values as a
matching datatype.  `time.Duration` and the float kinds are not exercised by
any claim and are left out of the model; all struct fields are modelled as
exported (settable), so `CanSet` is `true` throughout. -/

mutual
inductive Shape where
  | strS : Shape
  | boolS : Shape
  | intS : Nat → Shape
  | uintS : Nat → Shape
  | ptrS : Shape → Shape
  | sliceS : Shape → Shape
  | mapS : Shape → Shape
  | structS : List FieldT → Shape
inductive FieldT where
  | mk : Str → Option Str → Option Str → Bool → Shape → FieldT
end

/-- The field's Go identifier (`reflect.StructField.Name`). -/
def FieldT.name : FieldT → Str
  | .mk n _ _ _ _ => n

/-- The value of the field's env struct tag, when present (`Tag.Lookup`). -/
def FieldT.envTag : FieldT → Option Str
  | .mk _ t _ _ _ => t

/-- The value of the field's `flag` struct tag, when present (`Tag.Get`
returns the empty string when the tag is absent). -/
def FieldT.flagTag : FieldT → Option Str
  | .mk _ _ t _ _ => t

/-- Whether the field is embedded (`reflect.StructField.Anonymous`). -/
def FieldT.anonymous : FieldT → Bool
  | .mk _ _ _ a _ => a

/-- The field's declared shape. -/
def FieldT.shape : FieldT → Shape
  | .mk _ _ _ _ s => s

inductive Val where
  | strV : Str → Val
  | boolV : Bool → Val
  | intV : Nat → Int → Val
  | uintV : Nat → Nat → Val
  | ptrV : Option Val → Val
  | sliceV : List Val → Val
  | mapV : List (Str × Val) → Val
  | structV : List Val → Val

/-- Errors of the library (src/common.go, src/load.go and the env/flag
adapters).  `parseFail` stands for the `strconv` errors propagated verbatim,
`invalidMapValue` for `InvalidMapValueError` (which carries the offending
substrings), `unsupportedType` for `UnsupportedTypeError`. -/
inductive Err where
  | parseFail : Str → Err
  | invalidMapValue : List Str → Err
  | unsupportedType : Err
  | notAMap : Err
  | notASlice : Err
  | configType : Err

mutual
/-- The zero value of a shape (`reflect.New(typ).Elem()`): empty string,
false, zero integers, nil pointer, nil slice and map (modelled as empty),
and a struct of zero values. -/
def zeroVal : Shape → Val
  | .strS => .strV []
  | .boolS => .boolV false
  | .intS bits => .intV bits 0
  | .uintS bits => .uintV bits 0
  | .ptrS _ => .ptrV none
  | .sliceS _ => .sliceV []
  | .mapS _ => .mapV []
  | .structS fs => .structV (zeroVals fs)
termination_by sh => sizeOf sh
/-- Zero values of a struct's field list. -/
def zeroVals : List FieldT → List Val
  | [] => []
  | .mk _ _ _ _ sh :: fs => zeroVal sh :: zeroVals fs
termination_by fs => sizeOf fs
end

/-! ## Go standard-library parsers used by the coercer -/

def digitsLoop : Str → Nat → Option Nat
  | [], acc => some acc
  | c :: rest, acc =>
    if c.isDigit then digitsLoop rest (acc * 10 + (c.toNat - 48)) else none

/-- Base-10 digit-string reading (shared core of `strconv.ParseInt` and
`strconv.ParseUint`): at least one digit, digits only. -/
def digitsToNat : Str → Option Nat
  | [] => none
  | s => digitsLoop s 0

/-- Go `strconv.ParseInt(value, 10, 64)`: optional sign, base-10 digits,
range-checked against 64 bits (`none` models a returned error, whether a
syntax or a range error). -/
def parseInt64 (s : Str) : Option Int :=
  match s with
  | '+' :: rest =>
    (digitsToNat rest).bind fun n =>
      if n ≤ 2 ^ 63 - 1 then some (n : Int) else none
  | '-' :: rest =>
    (digitsToNat rest).bind fun n =>
      if n ≤ 2 ^ 63 then some (-(n : Int)) else none
  | _ =>
    (digitsToNat s).bind fun n =>
      if n ≤ 2 ^ 63 - 1 then some (n : Int) else none

/-- Go `strconv.ParseUint(value, 10, 64)`: no sign permitted, base-10 digits,
range-checked against 64 bits. -/
def parseUint64 (s : Str) : Option Nat :=
  (digitsToNat s).bind fun n => if n ≤ 2 ^ 64 - 1 then some n else none

/-- Go `strconv.ParseBool`. -/
def parseBool (s : Str) : Option Bool :=
  if s = "1".data ∨ s = "t".data ∨ s = "T".data ∨ s = "true".data ∨
      s = "TRUE".data ∨ s = "True".data then some true
  else if s = "0".data ∨ s = "f".data ∨ s = "F".data ∨ s = "false".data ∨
      s = "FALSE".data ∨ s = "False".data then some false
  else none

/-- The conversion performed by `reflect.Value.SetInt` when storing an
`int64` into a narrower signed kind: two's-complement truncation to `bits`
bits (Go's `int8(x)` etc.), with no range check and no panic. -/
def truncInt (bits : Nat) (x : Int) : Int :=
  let m := x % ((2 : Int) ^ bits)
  if m < 2 ^ (bits - 1) then m else m - 2 ^ bits

/-- The conversion performed by `reflect.Value.SetUint`: truncation to `bits`
bits. -/
def truncNat (bits : Nat) (x : Nat) : Nat := x % 2 ^ bits

/-- `SetMapIndex`: insert or overwrite a key in a (association-list modelled)
map. -/
def mapInsert (m : List (Str × Val)) (k : Str) (v : Val) : List (Str × Val) :=
  if m.any (fun p => p.1 = k) then
    m.map (fun p => if p.1 = k then (k, v) else p)
  else m ++ [(k, v)]

/-- The pair-extraction loop of `setField`'s map case (src/common.go lines
129-139): split each part at its first `=` via `strings.SplitN(kv, "=", 2)`;
a part with no `=` fails with `InvalidMapValueError` carrying the `SplitN`
result. -/
def extractPairs : List Str → Except Err (List Str × List Str)
  | [] => .ok ([], [])
  | part :: rest =>
    match splitN2 "=".data part with
    | [k, v] => do
      let (ks, vs) ← extractPairs rest
      .ok (k :: ks, v :: vs)
    | other => .error (.invalidMapValue other)

/-! ## The value coercer (`setField`, `setSliceValues`,
`setMapKeysAndValues`, src/common.go) -/

mutual
/-- `setField` from src/common.go: coerce a single raw string into the field
of shape `sh` holding value `v`.  Pointer and struct kinds reach the switch's
default branch (`UnsupportedTypeError`) — the traversals dereference pointers
before calling it.  `CanSet` is always true in the model.  The
`time.Duration` special case and the float kinds are outside the model. -/
def setField (sh : Shape) (v : Val) (value sep : Str) : Except Err Val :=
  match sh with
  | .strS => .ok (.strV value)
  | .boolS =>
    match parseBool value with
    | some b => .ok (.boolV b)
    | none => .error (.parseFail value)
  | .intS bits =>
    match parseInt64 value with
    | some i => .ok (.intV bits (truncInt bits i))
    | none => .error (.parseFail value)
  | .uintS bits =>
    match parseUint64 value with
    | some n => .ok (.uintV bits (truncNat bits n))
    | none => .error (.parseFail value)
  | .sliceS el => setSliceValues el v (goSplit sep value) sep
  | .mapS vsh => do
    let (ks, vs) ← extractPairs (goSplit sep value)
    setMapKeysAndValues vsh v ks vs sep
  | .ptrS _ => .error .unsupportedType
  | .structS _ => .error .unsupportedType
termination_by (2 * sizeOf sh, 0)

/-- `setSliceValues` from src/common.go: coerce each substring into a fresh
zero element and append it to the existing slice, one at a time, in order
(`reflect.Append`); a nil slice is first replaced by an empty one. -/
def setSliceValues (el : Shape) (v : Val) (values : List Str) (sep : Str) :
    Except Err Val :=
  match v with
  | .sliceV cur =>
    match values with
    | [] => .ok (.sliceV cur)
    | s :: rest => do
      let e ← setField el (zeroVal el) s sep
      setSliceValues el (.sliceV (cur ++ [e])) rest sep
  | _ => .error .notASlice
termination_by (2 * sizeOf el + 1, values.length)

/-- `setMapKeysAndValues` from src/common.go: kind check, key/value count
check (`InvalidMapValueError` carrying keys then values), then coerce each
value string into a fresh zero element and `SetMapIndex` it under its key. -/
def setMapKeysAndValues (vsh : Shape) (v : Val) (ks vs : List Str)
    (sep : Str) : Except Err Val :=
  match v with
  | .mapV m =>
    if ks.length ≠ vs.length then .error (.invalidMapValue (ks ++ vs))
    else (mapSetLoop vsh m ks vs sep).map .mapV
  | _ => .error .notAMap
termination_by (2 * sizeOf vsh + 1, ks.length + 1)

/-- The per-entry loop of `setMapKeysAndValues`. -/
def mapSetLoop (vsh : Shape) (m : List (Str × Val)) (ks vs : List Str)
    (sep : Str) : Except Err (List (Str × Val)) :=
  match ks, vs with
  | [], _ => .ok m
  | k :: ks', vv :: vs' => do
    let nv ← setField vsh (zeroVal vsh) vv sep
    mapSetLoop vsh (mapInsert m k nv) ks' vs' sep
  | _ :: _, [] => .ok m
termination_by (2 * sizeOf vsh + 1, ks.length)
end

/-- Claim C2: the code parses integer env values with
`strconv.ParseInt(value, 10, 64)` — 64 bits regardless of the field's kind —
and then stores them with `reflect.Value.SetInt`, which converts to the
narrower kind with no range check and no panic.  For an 8-bit field and the
string `"300"`, parsing succeeds (no conversion error is reported) and the
value silently stored is `44 = 300 - 256`: the coercion neither fails nor
stores an in-range image of the input. -/
theorem setField_int8_300 :
    parseInt64 "300".data = some 300 ∧
      setField (.intS 8) (.intV 8 0) "300".data ",".data =
        .ok (.intV 8 44) := by
  constructor
  · decide
  · simp only [setField, show parseInt64 "300".data = some 300 from by decide,
      show truncInt 8 300 = 44 from by decide]

/-- Claim C5, counterexample: a map pair with more than one `=` is not
rejected.  `strings.SplitN(kv, "=", 2)` cuts `"a=b=c"` at the first `=` only,
so the pair is accepted with key `"a"` and value `"b=c"`. -/
theorem setField_map_two_eq :
    setField (.mapS .strS) (.mapV []) "a=b=c".data ",".data =
      .ok (.mapV [("a".data, .strV "b=c".data)]) := by
  simp +decide [setField, extractPairs, setMapKeysAndValues, mapSetLoop,
    mapInsert, goSplit, splitN2, findSep, leadMatch, Bind.bind, Except.bind,
    Except.map]

theorem exBind_ok {α β : Type} (a : α) (f : α → Except Err β) :
    (Except.ok a >>= f) = f a := rfl

theorem exMap_ok {α β : Type} (f : α → β) (a : α) :
    Except.map f (Except.ok a : Except Err α) = .ok (f a) := rfl

theorem exMap_eq_bind {α β : Type} (f : α → β) (x : Except Err α) :
    Except.map f x = x >>= fun a => pure (f a) := by
  cases x <;> rfl

/-- Modelled from the amended claim's words: the ordered `key=value` pairs of
a raw map encoding.  Every part must contain at least one `=` and is cut at
its first `=` (the key is the text before it, the value everything after it,
further `=` included); the first part with no `=` fails with the
`InvalidMapEntryError` (`InvalidMapValueError` in the code) carrying it. -/
def specMapPairs : List Str → Except Err (List (Str × Str))
  | [] => .ok []
  | part :: rest =>
    match splitN2 "=".data part with
    | [k, v] => (specMapPairs rest).map (fun ps => (k, v) :: ps)
    | other => .error (.invalidMapValue other)

/-- Modelled from the amended claim's words: assemble a map field from a raw
string by splitting it on the separator, extracting the pairs, coercing each
value substring into the map's value shape (keys taken verbatim), and adding
the entries in order to the existing map, later duplicates overwriting. -/
def amendedMapAssemble (vsh : Shape) (m : List (Str × Val)) (raw sep : Str) :
    Except Err Val := do
  let pairs ← specMapPairs (goSplit sep raw)
  let m' ← pairs.foldlM
    (fun acc kv => do
      let nv ← setField vsh (zeroVal vsh) kv.2 sep
      pure (mapInsert acc kv.1 nv)) m
  pure (.mapV m')

theorem specMapPairs_extractPairs (parts : List Str) :
    specMapPairs parts = (extractPairs parts).map (fun p => p.1.zip p.2) := by
  induction parts with
  | nil => simp [specMapPairs, extractPairs, Except.map]
  | cons part rest ih =>
    simp only [specMapPairs, extractPairs]
    match hs : splitN2 "=".data part with
    | [] => simp [Except.map]
    | [k] => simp [Except.map]
    | [k, v] =>
      rw [ih]
      cases hex : extractPairs rest with
      | error e => simp [hex, Bind.bind, Except.bind, Except.map]
      | ok p => simp [hex, Bind.bind, Except.bind, Except.map]
    | k :: v :: w :: t => simp [Except.map]

theorem extractPairs_lengths (parts : List Str) :
    ∀ ks vs, extractPairs parts = .ok (ks, vs) → ks.length = vs.length := by
  induction parts with
  | nil =>
    intro ks vs h
    simp only [extractPairs] at h
    obtain ⟨rfl, rfl⟩ := Prod.mk.inj (Except.ok.inj h)
    rfl
  | cons part rest ih =>
    intro ks vs h
    simp only [extractPairs] at h
    match hs : splitN2 "=".data part with
    | [] => rw [hs] at h; exact absurd h (by simp)
    | [k] => rw [hs] at h; exact absurd h (by simp)
    | [k, v] =>
      rw [hs] at h
      cases hex : extractPairs rest with
      | error e => rw [hex] at h; exact absurd h (by simp [Bind.bind, Except.bind])
      | ok p =>
        rw [hex] at h
        simp only [Bind.bind, Except.bind, Except.ok.injEq] at h
        obtain ⟨rfl, rfl⟩ := Prod.mk.inj h
        simp only [List.length_cons]
        rw [ih p.1 p.2 (by rw [hex])]
    | k :: v :: w :: t => rw [hs] at h; exact absurd h (by simp)

theorem mapSetLoop_foldlM (vsh : Shape) (sep : Str) :
    ∀ (ks vs : List Str) (m : List (Str × Val)), ks.length = vs.length →
      mapSetLoop vsh m ks vs sep =
        (ks.zip vs).foldlM
          (fun acc kv => do
            let nv ← setField vsh (zeroVal vsh) kv.2 sep
            pure (mapInsert acc kv.1 nv)) m := by
  intro ks
  induction ks with
  | nil => intro vs m h; simp [mapSetLoop, pure, Except.pure]
  | cons k ks' ih =>
    intro vs m h
    cases vs with
    | nil => simp at h
    | cons vv vs' =>
      simp only [mapSetLoop, List.zip_cons_cons, List.foldlM_cons]
      cases hsf : setField vsh (zeroVal vsh) vv sep with
      | error e => simp [Bind.bind, Except.bind]
      | ok nv =>
        simp only [Bind.bind, Except.bind, pure, Except.pure]
        simp only [List.length_cons] at h
        exact ih vs' (mapInsert m k nv) (by omega)

/-- Claim C5 (amended): for every map-shaped field, the raw string is split
on the configured separator into parts, each part must contain at least one
`=` — a part with no `=` fails with `InvalidMapEntryError`
(`InvalidMapValueError`) — and each part is cut at its *first* `=` only, so a
part with several `=` is accepted, its key being the text before the first
`=` (taken verbatim) and its value substring (which may itself contain `=`)
coerced to the map's value shape.  The code's map assembly coincides with
this description on every input. -/
theorem setField_map_amended (vsh : Shape) (m : List (Str × Val))
    (raw sep : Str) :
    setField (.mapS vsh) (.mapV m) raw sep = amendedMapAssemble vsh m raw sep := by
  simp only [setField, amendedMapAssemble]
  rw [specMapPairs_extractPairs]
  cases hex : extractPairs (goSplit sep raw) with
  | error e => simp [Bind.bind, Except.bind, Except.map]
  | ok p =>
    obtain ⟨ks, vs⟩ := p
    have hlen := extractPairs_lengths _ ks vs hex
    simp only [exMap_ok, exBind_ok]
    simp only [setMapKeysAndValues]
    rw [if_neg (by omega)]
    rw [mapSetLoop_foldlM vsh sep ks vs m hlen]
    rw [exMap_eq_bind]

/-- Claim C8: for every sequence-shaped field, the raw string is split on the
configured separator and each substring is coerced into a fresh zero element
of the element shape; when every coercion succeeds the resulting elements are
appended, in source order, to the sequence value already present — elements
already present are never replaced or dropped. -/
theorem setSliceValues_append :
    (∀ (el : Shape) (old : List Val) (raw sep : Str),
      setField (.sliceS el) (.sliceV old) raw sep =
        setSliceValues el (.sliceV old) (goSplit sep raw) sep) ∧
    (∀ (el : Shape) (sep : Str) (values : List Str) (old elems : List Val),
      values.mapM (fun s => setField el (zeroVal el) s sep) = .ok elems →
      setSliceValues el (.sliceV old) values sep = .ok (.sliceV (old ++ elems))) := by
  constructor
  · intro el old raw sep
    simp only [setField]
  · intro el sep values
    induction values with
    | nil =>
      intro old elems h
      simp only [List.mapM_nil, pure, Except.pure, Except.ok.injEq] at h
      subst h
      simp [setSliceValues]
    | cons s rest ih =>
      intro old elems h
      simp only [List.mapM_cons] at h
      cases hsf : setField el (zeroVal el) s sep with
      | error e => rw [hsf] at h; exact absurd h (by simp [Bind.bind, Except.bind])
      | ok e =>
        rw [hsf] at h
        simp only [Bind.bind, Except.bind] at h
        cases hrest : rest.mapM (fun s => setField el (zeroVal el) s sep) with
        | error e2 => rw [hrest] at h; exact absurd h (by simp)
        | ok es =>
          rw [hrest] at h
          simp only [pure, Except.pure, Except.ok.injEq] at h
          subst h
          simp only [setSliceValues, hsf, Bind.bind, Except.bind]
          rw [ih (old ++ [e]) es hrest]
          simp

/-- Witness for claim C8: the spec's own example — the raw value
`localhost,somehost` under the default comma separator appended to an empty
string slice, giving the two elements in source order. -/
theorem setSliceValues_append_w :
    setSliceValues .strS (.sliceV []) ["localhost".data, "somehost".data]
        ",".data =
      .ok (.sliceV ([] ++ [.strV "localhost".data, .strV "somehost".data])) :=
  setSliceValues_append.2 .strS ",".data
    ["localhost".data, "somehost".data] [] _
    (by simp [List.mapM, List.mapM.loop, setField, Bind.bind, Except.bind,
      pure, Except.pure])

/-! ## The environment adapter (`loadFromEnv` / `envSetFields`) -/

/-- The env name segment of a field (`envSetFields`, name computation): the
field's identifier split on word boundaries and joined with `_`; when a
struct tag key is configured (non-empty) and the field carries that tag, the
tag's text — trimmed, cut at the first comma — is split and joined the same
way instead. -/
def fieldEnvName (te : Bool) (f : FieldT) : Str :=
  let base := List.intercalate "_".data (splitOnWordBoundaries f.name)
  if te then
    match f.envTag with
    | some t =>
      List.intercalate "_".data
        (splitOnWordBoundaries ((goSplit ",".data (trimSpace t)).headD []))
    | none => base
  else base

/-- The lookup step of `envSetFields`: read the uppercased fully-qualified
name from the environment (`os.Getenv`, modelled as a total function
returning the empty string for unset variables); an empty value leaves the
field untouched, otherwise the value is coerced into the field via
`setField`. -/
def envGetenvStep (env : Str → Str) (sep : Str) (sh : Shape) (w : Val)
    (pre fName : Str) : Except Err Val :=
  let raw := env (toUpperStr (pre ++ fName))
  if raw = [] then .ok w else setField sh w raw sep

mutual
/-- `envSetFields` from the env adapter: visit every field of the struct in
declaration order, threading the mutated values; any error aborts the whole
traversal. -/
def envSetFields (env : Str → Str) (te : Bool) (sep : Str) :
    List FieldT → List Val → Str → Except Err (List Val)
  | [], _, _ => .ok []
  | _ :: _, [], _ => .ok []
  | f :: fs, v :: vs, pre => do
    let v2 ← envField env te sep f v pre
    let vs2 ← envSetFields env te sep fs vs pre
    .ok (v2 :: vs2)
termination_by fields _ _ => (sizeOf fields, 0)

/-- One iteration of the `envSetFields` loop: compute the field's name
segment, apply the anonymous-embedding step, then the dereference,
struct-recursion and env-lookup steps. -/
def envField (env : Str → Str) (te : Bool) (sep : Str) :
    FieldT → Val → Str → Except Err Val
  | .mk nm etag ftag anon sh, v, pre => do
    let v1 ← envAnonStep env te sep anon sh v pre
    envDeref env te sep sh v1 pre (fieldEnvName te (.mk nm etag ftag anon sh))
termination_by f _ _ => (sizeOf f, 0)

/-- The anonymous-embedding branch of the loop body: a field that is
anonymous and of struct kind is recursed into with the *same* prefix — and,
since no `continue` follows in the code, the remaining steps still run on the
result. -/
def envAnonStep (env : Str → Str) (te : Bool) (sep : Str) :
    Bool → Shape → Val → Str → Except Err Val
  | true, .structS fs2, .structV vs2, pre =>
    (envSetFields env te sep fs2 vs2 pre).map Val.structV
  | _, _, v, _ => .ok v
termination_by _ sh _ _ => (sizeOf sh, 0)

/-- The pointer branch of the loop body: a pointer-kinded field value has a
zero pointee allocated when nil and processing continues against the pointee,
whose final value is stored back through the pointer. -/
def envDeref (env : Str → Str) (te : Bool) (sep : Str) :
    Shape → Val → Str → Str → Except Err Val
  | .ptrS inner, .ptrV p, pre, fName =>
    (envInner env te sep inner (p.getD (zeroVal inner)) pre fName).map
      (fun e => Val.ptrV (some e))
  | sh, v1, pre, fName => envInner env te sep sh v1 pre fName
termination_by sh _ _ _ => (sizeOf sh, 1)

/-- The final two steps of a loop iteration, applied to the (possibly
dereferenced) field value: if it is of struct kind, recurse with the prefix
extended by the field's segment and an underscore; then look the
fully-qualified name up in the environment. -/
def envInner (env : Str → Str) (te : Bool) (sep : Str) :
    Shape → Val → Str → Str → Except Err Val
  | .structS fs3, .structV vs3, pre, fName => do
    let vs4 ← envSetFields env te sep fs3 vs3 (pre ++ fName ++ "_".data)
    envGetenvStep env sep (.structS fs3) (.structV vs4) pre fName
  | sh, w, pre, fName => envGetenvStep env sep sh w pre fName
termination_by sh _ _ _ => (sizeOf sh, 0)
end

/-- Shapes whose env processing consists of the lookup step only: neither a
pointer (which the traversal allocates when nil) nor a struct (whose nested
fields are visited under extended names). -/
def plainShape : Shape → Bool
  | .ptrS _ => false
  | .structS _ => false
  | _ => true

theorem envAnonStep_plain (env : Str → Str) (te : Bool) (sep : Str)
    (anon : Bool) (sh : Shape) (v : Val) (pre : Str)
    (hp : plainShape sh = true) :
    envAnonStep env te sep anon sh v pre = .ok v := by
  rw [envAnonStep.eq_def]
  split
  · rename_i fs2 vs2
    simp [plainShape] at hp
  · rfl

theorem envDeref_plain (env : Str → Str) (te : Bool) (sep : Str) (sh : Shape)
    (v : Val) (pre fName : Str) (hp : plainShape sh = true) :
    envDeref env te sep sh v pre fName = envInner env te sep sh v pre fName := by
  rw [envDeref.eq_def]
  split
  · rename_i inner p
    simp [plainShape] at hp
  · rfl

theorem envInner_plain (env : Str → Str) (te : Bool) (sep : Str) (sh : Shape)
    (v : Val) (pre fName : Str) (hp : plainShape sh = true) :
    envInner env te sep sh v pre fName = envGetenvStep env sep sh v pre fName := by
  rw [envInner.eq_def]
  split
  · rename_i fs3 vs3
    simp [plainShape] at hp
  · rfl

theorem envField_plain (env : Str → Str) (te : Bool) (sep : Str) (f : FieldT)
    (v : Val) (pre : Str) (hp : plainShape f.shape = true)
    (he : env (toUpperStr (pre ++ fieldEnvName te f)) = []) :
    envField env te sep f v pre = .ok v := by
  obtain ⟨nm, etag, ftag, anon, sh⟩ := f
  simp only [FieldT.shape] at hp
  simp only [envField, Bind.bind, Except.bind]
  rw [envAnonStep_plain env te sep anon sh v pre hp]
  show envDeref env te sep sh v pre (fieldEnvName te (FieldT.mk nm etag ftag anon sh)) =
    Except.ok v
  rw [envDeref_plain env te sep sh v pre _ hp]
  rw [envInner_plain env te sep sh v pre _ hp]
  simp [envGetenvStep, he]

/-- Claim C9 (amended): for every field of plain shape — string, boolean,
integer, unsigned, slice or map, i.e. neither a pointer nor a struct — whose
fully-qualified name resolves to no source value (unset, or set to the empty
string), a successful env load leaves that field's value exactly as it was,
whatever happens to the other fields; caller-supplied defaults in such fields
survive.  (Pointer fields are excluded: a nil pointer field is allocated to
point at a zero value during traversal even when its name resolves to
nothing; struct fields may have nested fields set under extended names.) -/
theorem envSetFields_absent_frame (env : Str → Str) (te : Bool) (sep : Str) :
    ∀ (fields : List FieldT) (vals vals' : List Val) (pre : Str) (i : Nat)
      (f : FieldT),
      envSetFields env te sep fields vals pre = .ok vals' →
      fields[i]? = some f →
      plainShape f.shape = true →
      env (toUpperStr (pre ++ fieldEnvName te f)) = [] →
      vals'[i]? = vals[i]? := by
  intro fields
  induction fields with
  | nil =>
    intro vals vals' pre i f h hf hp he
    simp at hf
  | cons f0 fs ih =>
    intro vals vals' pre i f h hf hp he
    cases vals with
    | nil =>
      simp only [envSetFields] at h
      obtain rfl := Except.ok.inj h
      simp
    | cons v vs =>
      simp only [envSetFields, Bind.bind, Except.bind] at h
      cases hfd : envField env te sep f0 v pre with
      | error e =>
        rw [hfd] at h
        exact absurd h (by simp)
      | ok v2 =>
        rw [hfd] at h
        cases hrest : envSetFields env te sep fs vs pre with
        | error e =>
          rw [hrest] at h
          exact absurd h (by simp)
        | ok vs2 =>
          rw [hrest] at h
          simp only [Except.ok.injEq] at h
          subst h
          cases i with
          | zero =>
            simp only [List.getElem?_cons_zero] at hf ⊢
            obtain rfl := Option.some.inj hf
            have hplain := envField_plain env te sep f0 v pre hp he
            rw [hplain] at hfd
            obtain rfl := Except.ok.inj hfd
            rfl
          | succ n =>
            simp only [List.getElem?_cons_succ] at hf ⊢
            exact ih vs vs2 pre n f hrest hf hp he

theorem envAnonStep_false (env : Str → Str) (te : Bool) (sep : Str)
    (sh : Shape) (v : Val) (pre : Str) :
    envAnonStep env te sep false sh v pre = .ok v := by
  rw [envAnonStep.eq_def]

theorem intercalate_single (sep x : Str) : List.intercalate sep [x] = x := by
  simp [List.intercalate, List.intersperse]

theorem sowb_Host : splitOnWordBoundaries ['H', 'o', 's', 't'] = [['H', 'o', 's', 't']] :=
  splitOnWordBoundaries_cons_none 'H' ['o', 's', 't'] (by decide)

theorem sowb_Port : splitOnWordBoundaries ['P', 'o', 'r', 't'] = [['P', 'o', 'r', 't']] :=
  splitOnWordBoundaries_cons_none 'P' ['o', 'r', 't'] (by decide)

theorem sowb_Inner : splitOnWordBoundaries ['I', 'n', 'n', 'e', 'r'] = [['I', 'n', 'n', 'e', 'r']] :=
  splitOnWordBoundaries_cons_none 'I' ['n', 'n', 'e', 'r'] (by decide)

/-- Claim C9, counterexample: a field whose fully-qualified name resolves to
no source value is not always left unchanged.  With an entirely empty
environment, a nil `*string` field is allocated by the traversal and ends up
pointing at a zero value instead of staying nil. -/
theorem envSetFields_nilPtr_alloc :
    envSetFields (fun _ => []) true ",".data
        [.mk "Host".data none none false (.ptrS .strS)] [.ptrV none] [] =
      .ok [.ptrV (some (.strV []))] ∧
      Val.ptrV (some (.strV [])) ≠ .ptrV none := by
  constructor
  · simp [envSetFields, envField, envAnonStep_false, envDeref, zeroVal,
      envInner_plain, plainShape, envGetenvStep, Bind.bind, Except.bind,
      Except.map]
  · simp

def envW : Str → Str := fun n => if n = "PORT".data then "8080".data else []

def fieldsW : List FieldT :=
  [.mk "Host".data none none false .strS, .mk "Port".data none none false (.intS 64)]

def valsW : List Val := [.strV "default".data, .intV 64 0]

def valsW2 : List Val := [.strV "default".data, .intV 64 8080]

theorem envSetFields_frame_w_eval :
    envSetFields envW true ",".data fieldsW valsW [] = .ok valsW2 := by
  simp +decide [envW, fieldsW, valsW, valsW2, envSetFields, envField,
    envAnonStep_false, envDeref_plain, envInner_plain, plainShape,
    envGetenvStep, fieldEnvName, FieldT.envTag, FieldT.name, sowb_Host,
    sowb_Port, List.intercalate, List.intersperse, toUpperStr, setField,
    Bind.bind, Except.bind, Except.map,
    show parseInt64 ['8', '0', '8', '0'] = some 8080 from by decide,
    show truncInt 64 8080 = 8080 from by decide]

/-- Witness for claim C9 (amended): with `PORT=8080` set and `HOST` absent,
loading the two-field struct succeeds, overwrites the Port field, and leaves
the caller's Host default untouched. -/
theorem envSetFields_absent_frame_w :
    envSetFields envW true ",".data fieldsW valsW [] = .ok valsW2 ∧
      valsW2[0]? = valsW[0]? := by
  refine ⟨envSetFields_frame_w_eval, ?_⟩
  refine envSetFields_absent_frame envW true ",".data fieldsW valsW valsW2 [] 0
    (.mk "Host".data none none false .strS) envSetFields_frame_w_eval rfl rfl ?_
  simp +decide [envW, fieldEnvName, FieldT.envTag, FieldT.name, sowb_Host,
    List.intercalate, List.intersperse, toUpperStr]

/-! ## The flag adapter (`loadFromFlags` / `bindFlags` / `bindFlag`) -/

/-- `bindFlag`: register one typed flag for a leaf field.  String, boolean,
integer, unsigned, slice and map kinds each register a flag value bound to
the field's storage (nil slices and maps are first allocated — a no-op in the
model); any other kind, in particular the struct and pointer kinds that the
traversal never passes here, falls to `UnsupportedTypeError`.  Registration
is modelled by returning the flag name passed to `flag.Var`. -/
def bindFlag (sh : Shape) (v : Val) (flagName : Str) : Except Err (Val × Str) :=
  match sh with
  | .strS => .ok (v, flagName)
  | .boolS => .ok (v, flagName)
  | .intS _ => .ok (v, flagName)
  | .uintS _ => .ok (v, flagName)
  | .sliceS _ => .ok (v, flagName)
  | .mapS _ => .ok (v, flagName)
  | .ptrS _ => .error .unsupportedType
  | .structS _ => .error .unsupportedType

mutual
/-- `bindFlags` from the flag adapter: walk the struct's fields in order,
returning the updated values (nil pointers are allocated) and the flag names
registered, in registration order.  An anonymous field is recursed into with
the empty string as the prefix (not the current one) and contributes no name
mutation (the `continue`); otherwise the field's name is lowercased as a
whole (the tag text replaces it verbatim when present), the running prefix
gains a trailing `.` if non-empty (a mutation that persists for the remaining
fields), and the flag name is the prefix followed by the word-split,
dot-joined identifier; struct kinds recurse with the flag name as the new
prefix, leaf kinds register via `bindFlag`.  (For an anonymous field of
non-struct kind Go's `NumField` would panic; that case is left outside the
model as no claim reaches it.) -/
def bindFlags : List FieldT → List Val → Str → Except Err (List Val × List Str)
  | [], _, _ => .ok ([], [])
  | _ :: _, [], _ => .ok ([], [])
  | .mk nm etag ftag anon sh :: fs, v :: vs, name =>
    if anon then do
      let (v2, ns1) ← bindAnon sh v
      let (vs2, ns2) ← bindFlags fs vs name
      .ok (v2 :: vs2, ns1 ++ ns2)
    else
      let fl0 := if (ftag.getD []) = [] then toLowerStr nm else ftag.getD []
      let name2 :=
        if name ≠ [] ∧ ¬(name.getLast? = some '.') then name ++ ".".data
        else name
      let flagName := name2 ++ List.intercalate ".".data (splitOnWordBoundaries fl0)
      match sh, v with
      | .ptrS inner, .ptrV p => do
        let (w2, ns1) ← bindLeafOrStruct inner (p.getD (zeroVal inner)) flagName
        let (vs2, ns2) ← bindFlags fs vs name2
        .ok (Val.ptrV (some w2) :: vs2, ns1 ++ ns2)
      | sh2, w => do
        let (w2, ns1) ← bindLeafOrStruct sh2 w flagName
        let (vs2, ns2) ← bindFlags fs vs name2
        .ok (w2 :: vs2, ns1 ++ ns2)
termination_by fields _ _ => (sizeOf fields, 0)

/-- The anonymous branch of `bindFlags`: recurse into the embedded struct
with the empty prefix. -/
def bindAnon : Shape → Val → Except Err (Val × List Str)
  | .structS fs2, .structV vs2 =>
    (bindFlags fs2 vs2 []).map (fun r => (Val.structV r.1, r.2))
  | _, v => .ok (v, [])
termination_by sh _ => (sizeOf sh, 0)

/-- The post-dereference step of `bindFlags`: a struct kind recurses with the
flag name as the new prefix, anything else registers one flag. -/
def bindLeafOrStruct : Shape → Val → Str → Except Err (Val × List Str)
  | .structS fs3, .structV vs3, flagName =>
    (bindFlags fs3 vs3 flagName).map (fun r => (Val.structV r.1, r.2))
  | sh, w, flagName => (bindFlag sh w flagName).map (fun r => (r.1, [r.2]))
termination_by sh _ _ => (sizeOf sh, 1)
end

theorem envAnonStep_anonStruct (env : Str → Str) (te : Bool) (sep : Str)
    (fs2 : List FieldT) (vs2 : List Val) (pre : Str) :
    envAnonStep env te sep true (.structS fs2) (.structV vs2) pre =
      (envSetFields env te sep fs2 vs2 pre).map Val.structV := by
  rw [envAnonStep.eq_def]

theorem envDeref_struct (env : Str → Str) (te : Bool) (sep : Str)
    (fs3 : List FieldT) (vs3 : List Val) (pre fName : Str) :
    envDeref env te sep (.structS fs3) (.structV vs3) pre fName =
      envInner env te sep (.structS fs3) (.structV vs3) pre fName := by
  rw [envDeref.eq_def]

theorem envInner_struct (env : Str → Str) (te : Bool) (sep : Str)
    (fs3 : List FieldT) (vs3 : List Val) (pre fName : Str) :
    envInner env te sep (.structS fs3) (.structV vs3) pre fName =
      (do
        let vs4 ← envSetFields env te sep fs3 vs3 (pre ++ fName ++ "_".data)
        envGetenvStep env sep (.structS fs3) (.structV vs4) pre fName) := by
  rw [envInner.eq_def]

/-- Claim C3: the flag adapter does not register `foo.bar` for an untagged
field named `FooBar` — it registers `foobar`.  The code applies
`strings.ToLower` to the whole identifier *before* `splitOnWordBoundaries`,
so no uppercase boundary survives the lowering and the split is a no-op; yet
word-splitting the identifier does give the segments `Foo`,`Bar` (whose
lowercased dot-join is the claimed `foo.bar`), and the `UseFlags` doc comment
itself promises the name is split on word boundaries. -/
theorem bindFlags_FooBar :
    bindFlags [.mk "FooBar".data none none false .strS] [.strV []] [] =
      .ok ([.strV []], ["foobar".data]) ∧
    splitOnWordBoundaries "FooBar".data = ["Foo".data, "Bar".data] ∧
    "foobar".data ≠ "foo.bar".data := by
  refine ⟨?_, ?_, by decide⟩
  · have hlow : toLowerStr "FooBar".data = ['f', 'o', 'o', 'b', 'a', 'r'] := by decide
    have hsowb : splitOnWordBoundaries ['f', 'o', 'o', 'b', 'a', 'r'] =
        [['f', 'o', 'o', 'b', 'a', 'r']] :=
      splitOnWordBoundaries_cons_none 'f' ['o', 'o', 'b', 'a', 'r'] (by decide)
    simp +decide [bindFlags, bindLeafOrStruct, bindFlag, hlow, hsowb,
      intercalate_single, Bind.bind, Except.bind, Except.map]
  · simp [splitOnWordBoundaries_cons_some 'F' "ooBar".data 3 (by decide),
      splitOnWordBoundaries_cons_none 'B' "ar".data (by decide)]

def envC1 : Str → Str :=
  fun n => if n = "TEST_INNER_HOST".data then "x".data else []

/-- Claim C1: embedded structures are not visited exactly once with the
parent's prefix.  Env half: `envSetFields` recurses into an anonymous struct
field with the same prefix but — with no `continue` following — falls through
into the generic struct branch and visits it a second time under the prefix
extended by the embedded field's own name segment, so with only
`TEST_INNER_HOST` set (and `TEST_HOST` unset) the promoted `Host` field of an
embedded `Inner` struct is still assigned, through the extra name level the
claim rules out.  Flag half: `bindFlags` recurses into an anonymous field
with the *empty* prefix rather than the parent's, so the embedded `Host`
field of a struct nested under field `DB` registers the flag `host`, not
`db.host` — outside its parent's namespace. -/
theorem embedded_extra_level :
    envSetFields envC1 true ",".data
        [.mk "Inner".data none none true
          (.structS [.mk "Host".data none none false .strS])]
        [.structV [.strV []]] "TEST_".data =
      .ok [.structV [.strV "x".data]] ∧
    bindFlags
        [.mk "DB".data none none false
          (.structS [.mk "Inner".data none none true
            (.structS [.mk "Host".data none none false .strS])])]
        [.structV [.structV [.strV []]]] [] =
      .ok ([.structV [.structV [.strV []]]], ["host".data]) := by
  constructor
  · simp +decide [envSetFields, envField, envAnonStep_anonStruct,
      envAnonStep_false, envDeref_struct, envInner_struct, envDeref_plain,
      envInner_plain, plainShape, envGetenvStep, envC1, fieldEnvName,
      FieldT.envTag, FieldT.name, sowb_Host, sowb_Inner, intercalate_single,
      toUpperStr, setField, Bind.bind, Except.bind, Except.map]
  · have hlowDB : toLowerStr "DB".data = ['d', 'b'] := by decide
    have hlowHost : toLowerStr "Host".data = ['h', 'o', 's', 't'] := by decide
    have hsowbdb : splitOnWordBoundaries ['d', 'b'] = [['d', 'b']] :=
      splitOnWordBoundaries_cons_none 'd' ['b'] (by decide)
    have hsowbhost : splitOnWordBoundaries ['h', 'o', 's', 't'] =
        [['h', 'o', 's', 't']] :=
      splitOnWordBoundaries_cons_none 'h' ['o', 's', 't'] (by decide)
    simp +decide [bindFlags, bindAnon, bindLeafOrStruct, bindFlag, hlowDB,
      hlowHost, hsowbdb, hsowbhost, intercalate_single, Bind.bind,
      Except.bind, Except.map]

/-! ## The loader entry points and the orchestrator (src/load.go) -/

/-- A Go `any` value handed to a loader: either a pointer to a struct value
(the supported case) or any non-pointer value, for which only the kind check
matters. -/
inductive Target where
  | ptrTo : List FieldT → List Val → Target
  | nonPtr : Target

/-- The env loader (the closure built by `loadFromEnv`): normalize the
prefix (a non-empty prefix not already ending in `_` gets one appended),
fail with `ConfigTypeError` if the target is not a pointer, then run the
traversal.  `te` stands for a non-empty configured struct-tag key. -/
def loadFromEnv (pfx : Str) (te : Bool) (sep : Str) (env : Str → Str)
    (t : Target) : Except Err Target :=
  let p2 := if pfx ≠ [] ∧ ¬(pfx.getLast? = some '_') then pfx ++ "_".data else pfx
  match t with
  | .nonPtr => .error .configType
  | .ptrTo fs vs => (envSetFields env te sep fs vs p2).map (.ptrTo fs)

/-- `loadFromFlags`: if fewer than two process arguments are present the
loader returns immediately with no error — *before* the pointer check;
otherwise a non-pointer target fails with `ConfigTypeError` and a pointer
target has its flags registered by `bindFlags` (the subsequent `flag.Parse`
consumes the arguments; registration is the observable modelled here,
returned as the list of registered names). -/
def loadFromFlags (nArgs : Nat) (t : Target) : Except Err (Target × List Str) :=
  if nArgs < 2 then .ok (t, [])
  else
    match t with
    | .nonPtr => .error .configType
    | .ptrTo fs vs => (bindFlags fs vs []).map (fun r => (.ptrTo fs r.1, r.2))

/-- Claim C4, counterexample: with a single process argument (`os.Args` of
length 1, i.e. no actual arguments), the flag loader returns success for a
non-pointer target — the `len(os.Args) < 2` early return comes before the
pointer check, so no `ConfigTypeError` is reported. -/
theorem loadFromFlags_nonPtr_noArgs :
    loadFromFlags 1 .nonPtr = .ok (.nonPtr, []) := by
  simp [loadFromFlags]

/-- Claim C4 (amended): loading into a non-pointer target fails with
`ConfigTypeError` in the env loader regardless of configuration, and in the
flag loader exactly when at least two process arguments are present; with
fewer than two process arguments the flag loader is a no-op that succeeds
without ever checking the target. -/
theorem nonPtr_configTypeError :
    (∀ (pfx : Str) (te : Bool) (sep : Str) (env : Str → Str),
      loadFromEnv pfx te sep env .nonPtr = .error .configType) ∧
    (∀ n : Nat, 2 ≤ n → loadFromFlags n .nonPtr = .error .configType) ∧
    (∀ n : Nat, n < 2 → loadFromFlags n .nonPtr = .ok (.nonPtr, [])) := by
  refine ⟨fun pfx te sep env => rfl, fun n hn => ?_, fun n hn => ?_⟩
  · rw [loadFromFlags, if_neg (by omega)]
  · rw [loadFromFlags, if_pos hn]

/-- Witness for claim C4 (amended), at argument counts 2 and 1 and a concrete
env configuration. -/
theorem nonPtr_configTypeError_w :
    loadFromEnv "TEST".data true ",".data (fun _ => []) .nonPtr =
        .error .configType ∧
      loadFromFlags 2 .nonPtr = .error .configType ∧
      loadFromFlags 1 .nonPtr = .ok (.nonPtr, []) :=
  ⟨nonPtr_configTypeError.1 "TEST".data true ",".data (fun _ => []),
    nonPtr_configTypeError.2.1 2 (by decide),
    nonPtr_configTypeError.2.2 1 (by decide)⟩

/-- A configured loader: mutates the target state and may report an error
(Go's `Loader func(any) error`, where the mutation happens through the
pointer and the error is the return value). -/
def LoaderM (σ : Type) : Type := σ → σ × Option Err

/-- The source loop of `Load` (src/load.go): apply each source's loader, in
order, to the same target; stop at the first error. -/
def applyLoaders {σ : Type} (loaders : List (Str × LoaderM σ)) :
    List Str → σ → σ × Option Err
  | [], st => (st, none)
  | s :: rest, st =>
    match (loaders.find? (fun p => p.1 == s)).map Prod.snd with
    | none => applyLoaders loaders rest st
    | some f =>
      match f st with
      | (st2, some e) => (st2, some e)
      | (st2, none) => applyLoaders loaders rest st2

/-- `Load` from src/load.go, after options processing: run the configured
sources in order against the caller's target.  The result models Go's
`(*T, error)` return — the first component is the returned pointer (`none`
for Go's `nil`), the second the final state observable through the caller's
original pointer, the third the returned error. -/
def Load {σ : Type} (loaders : List (Str × LoaderM σ)) (sources : List Str)
    (init : σ) : Option σ × σ × Option Err :=
  match applyLoaders loaders sources init with
  | (st, some e) => (none, st, some e)
  | (st, none) => (some st, st, none)

theorem applyLoaders_append_error {σ : Type} (loaders : List (Str × LoaderM σ))
    (post : List Str) (s : Str) (f : LoaderM σ) (st st2 : σ) (e : Err)
    (hs : (loaders.find? (fun p => p.1 == s)).map Prod.snd = some f)
    (hf : f st = (st2, some e)) :
    ∀ (pre : List Str) (init : σ),
      applyLoaders loaders pre init = (st, none) →
      applyLoaders loaders (pre ++ s :: post) init = (st2, some e) := by
  intro pre
  induction pre with
  | nil =>
    intro init hpre
    simp only [applyLoaders] at hpre
    obtain ⟨rfl, -⟩ := Prod.mk.inj hpre
    simp only [List.nil_append, applyLoaders, hs, hf]
  | cons q qre ih =>
    intro init hpre
    simp only [applyLoaders] at hpre
    simp only [List.cons_append, applyLoaders]
    cases hq : (loaders.find? (fun p => p.1 == q)).map Prod.snd with
    | none =>
      rw [hq] at hpre
      exact ih init hpre
    | some g =>
      rw [hq] at hpre
      dsimp only at hpre ⊢
      rcases hg : g init with ⟨st3, eo⟩
      rw [hg] at hpre
      cases eo with
      | some e2 =>
        dsimp only at hpre
        exact absurd hpre (by simp)
      | none =>
        dsimp only at hpre
        dsimp only
        exact ih st3 hpre

/-- Claim C10: whenever a configured loader returns an error, `Load` stops —
the sources after the failing one are not applied (the result does not
depend on them) — and returns a nil configuration pointer together with that
error; the partially mutated target is never returned as the result pointer,
although the mutations made up to and including the failing loader remain
visible through the caller's original pointer. -/
theorem Load_stops_on_error {σ : Type} (loaders : List (Str × LoaderM σ))
    (pre post : List Str) (s : Str) (f : LoaderM σ) (init st st2 : σ)
    (e : Err)
    (hpre : applyLoaders loaders pre init = (st, none))
    (hs : (loaders.find? (fun p => p.1 == s)).map Prod.snd = some f)
    (hf : f st = (st2, some e)) :
    Load loaders (pre ++ s :: post) init = (none, st2, some e) := by
  rw [Load, applyLoaders_append_error loaders post s f st st2 e hs hf pre init hpre]

/-- A loader that succeeds, adding 1 to a counter state. -/
def loaderA : LoaderM Nat := fun n => (n + 1, none)

/-- A loader that mutates the state (adds 5) and then fails. -/
def loaderB : LoaderM Nat := fun n => (n + 5, some .configType)

def loadersW : List (Str × LoaderM Nat) :=
  [("env".data, loaderA), ("flag".data, loaderB)]

/-- Witness for claim C10: with a succeeding `env` loader and a `flag` loader
that mutates and then fails, `Load` over the sources `env, flag, env` returns
the nil pointer together with the error; the state holds the mutations made
up to and including the failure, and the trailing `env` source was never
applied. -/
theorem Load_stops_on_error_w :
    Load loadersW ["env".data, "flag".data, "env".data] 0 =
      (none, 6, some .configType) :=
  Load_stops_on_error loadersW ["env".data] ["env".data] "flag".data loaderB
    0 1 6 .configType (by rfl) (by rfl) (by rfl)

end Qcl
